import Mathlib

/-!
Shallow embedding of `services/service_description_validator.py`
(class `ServiceDescriptionValidator`) and proofs about it.

Modelling conventions:
* Python strings are `String` / `List Char`; text positions are `Nat` indices.
* Python regular expressions used by the module are embedded as specialized
  backtracking matchers that follow Python `re` semantics (leftmost match,
  greedy `*`, lazy `*?`, multiline `^`/`$`, DOTALL where the code passes it).
* `str.strip`, `str.lower`, `\s` and the character classes are modelled over
  their ASCII fragments, which is exact for ASCII input.
* The LLM chat call is an opaque oracle `String → String → String → String`
  taking the ref heading and the two excerpts that determine the prompt and
  returning the raw response text; `json.loads` is an opaque parameter
  `String → Option (List (String × JVal))` (`none` models `JSONDecodeError`).
* The reference markdown `fieldglass_service_description.md` is data not in
  the repository, so it is a `String` parameter of the validator.
* All functions are total, which models the absence of exceptions on the
  embedded paths; ghost fields (`trace`, `oracleCalls`, `tagged`) record the
  match positions and oracle invocations that the theorems talk about, and
  the externally returned fields are computed exactly as in the source.
-/

/-- ASCII fragment of Python whitespace, as used by `str.strip()` and `\s`. -/
def pyIsSpace (c : Char) : Bool :=
  c == ' ' || c == '\t' || c == '\n' || c == '\r' || c == '\x0b' || c == '\x0c'

/-- ASCII case folding, the ASCII fragment of Python `str.lower()` / `re.I`. -/
def toLowerAscii (c : Char) : Char :=
  if 65 ≤ c.toNat ∧ c.toNat ≤ 90 then Char.ofNat (c.toNat + 32) else c

/-- Python `str.strip()` on a character list. -/
def pyStripL (l : List Char) : List Char :=
  ((l.dropWhile pyIsSpace).reverse.dropWhile pyIsSpace).reverse

/-- Python `str.strip()`. -/
def pyStrip (s : String) : String := String.mk (pyStripL s.data)

/-- Python `str.lower()` (ASCII fragment). -/
def lowerStr (s : String) : String := String.mk (s.data.map toLowerAscii)

/-- Python slicing `s[:n]` by characters. -/
def takeChars (n : Nat) (s : String) : String := String.mk (s.data.take n)

/-- Length of the maximal prefix of `l` satisfying `p`. -/
def countWhileAux (p : Char → Bool) : List Char → Nat
  | [] => 0
  | c :: t => if p c then countWhileAux p t + 1 else 0

/-- Length of the maximal run of characters satisfying `p` starting at `i`. -/
def runFrom (p : Char → Bool) (s : List Char) (i : Nat) : Nat :=
  countWhileAux p (s.drop i)

/-- Length of the whitespace run (`\s*`, greedy maximum) starting at `i`. -/
def wsRun (s : List Char) (i : Nat) : Nat := runFrom pyIsSpace s i

/-- Length of the `#` run starting at `i`. -/
def hashRun (s : List Char) (i : Nat) : Nat := runFrom (fun c => c == '#') s i

/-- Case-sensitive literal match of `lit` at position `i`. -/
def litAt (s : List Char) (i : Nat) : List Char → Bool
  | [] => true
  | c :: t => s[i]? == some c && litAt s (i + 1) t

/-- Case-insensitive literal match at position `i`; `lit` is given lowercase. -/
def litCIAt (s : List Char) (i : Nat) : List Char → Bool
  | [] => true
  | c :: t =>
    (match s[i]? with
     | some d => toLowerAscii d == c
     | none => false) && litCIAt s (i + 1) t

/-- The class `[a-zA-Z0-9]` of the governing-clause regex. -/
def isGateAlnum (c : Char) : Bool :=
  (97 ≤ c.toNat && c.toNat ≤ 122) || (65 ≤ c.toNat && c.toNat ≤ 90) ||
    (48 ≤ c.toNat && c.toNat ≤ 57)

/-- One attempt of `attachment\s*1[^a-zA-Z0-9]*service\s*description` (re.I)
at position `i`.  Each `\s*` / class run is forced because the following
literal character is outside the repeated class, so no backtracking can
change acceptance. -/
def gateAt (s : List Char) (i : Nat) : Bool :=
  if litCIAt s i "attachment".data then
    let j := i + 10
    let j1 := j + wsRun s j
    if s[j1]? == some '1' then
      let k := j1 + 1
      let k1 := k + runFrom (fun c => !(isGateAlnum c)) s k
      if litCIAt s k1 "service".data then
        let m := k1 + 7
        let m1 := m + wsRun s m
        litCIAt s m1 "description".data
      else false
    else false
  else false

/-- `re.search` scan for the governing-clause pattern: try every start. -/
def gateSearchAux (s : List Char) (i : Nat) : Nat → Bool
  | 0 => gateAt s i
  | fuel + 1 => gateAt s i || gateSearchAux s (i + 1) fuel

/-- Truthiness of
`re.search(r"attachment\s*1[^a-zA-Z0-9]*service\s*description", text, re.I)`,
the governing-clause presence gate. -/
def gateSearch (s : String) : Bool := gateSearchAux s.data 0 s.data.length

/-- First match of literal `lit` at a position `≥ q` (lazy `.*?` up to a
literal, DOTALL); returns the position just after the literal. -/
def findLitFrom (s : List Char) (lit : List Char) (q : Nat) : Nat → Option Nat
  | 0 => if litAt s q lit then some (q + lit.length) else none
  | fuel + 1 =>
    if litAt s q lit then some (q + lit.length) else findLitFrom s lit (q + 1) fuel

/-- Case-insensitive variant of `findLitFrom`. -/
def findLitCIFrom (s : List Char) (lit : List Char) (q : Nat) : Nat → Option Nat
  | 0 => if litCIAt s q lit then some (q + lit.length) else none
  | fuel + 1 =>
    if litCIAt s q lit then some (q + lit.length) else findLitCIFrom s lit (q + 1) fuel

/-- Match of `<!--.*?-->` (DOTALL) at the start of `s`; returns match end. -/
def commentMatch (s : List Char) : Option Nat :=
  if litAt s 0 "<!--".data then findLitFrom s "-->".data 4 s.length else none

/-- Tail `["\']\s*-->` of the PageHeader pattern tried at `q` (the position
just after a candidate closing quote). -/
def phClose (s : List Char) (q : Nat) : Option Nat :=
  let r := q + wsRun s q
  if litAt s r "-->".data then some (r + 3) else none

/-- Lazy group scan for `(.*?)["\']\s*-->` starting at `p6`, current group
length `t`: prefer closing at the current position, else extend the group by
one non-newline character. -/
def phGroupLoop (s : List Char) (p6 : Nat) (t : Nat) : Nat → Option (Nat × Nat)
  | 0 => none
  | fuel + 1 =>
    match s[p6 + t]? with
    | none => none
    | some c =>
      if c == '"' || c == '\'' then
        match phClose s (p6 + t + 1) with
        | some e => some (t, e)
        | none => phGroupLoop s p6 (t + 1) fuel
      else if c == '\n' then none
      else phGroupLoop s p6 (t + 1) fuel

/-- Match of `<!--\s*PageHeader\s*=\s*["\'](.*?)["\']\s*-->` at the start of
`s`; returns (captured group, match end).  Each inner `\s*` is forced because
the next literal is not whitespace. -/
def phMatch (s : List Char) : Option (List Char × Nat) :=
  if litAt s 0 "<!--".data then
    let p := 4 + wsRun s 4
    if litAt s p "PageHeader".data then
      let p2 := p + 10
      let p3 := p2 + wsRun s p2
      if s[p3]? == some '=' then
        let p4 := p3 + 1
        let p5 := p4 + wsRun s p4
        match s[p5]? with
        | some c =>
          if c == '"' || c == '\'' then
            match phGroupLoop s (p5 + 1) 0 s.length with
            | some (t, e) => some ((s.drop (p5 + 1)).take t, e)
            | none => none
          else none
        | none => none
      else none
    else none
  else none

/-- Scan of `.*?>.*?</figure>`: at each candidate `>` position (lazy first
`.*?`, DOTALL) search for the closing tag (lazy second `.*?`). -/
def figScan (s : List Char) (p : Nat) : Nat → Option Nat
  | 0 => none
  | fuel + 1 =>
    match s[p]? with
    | none => none
    | some c =>
      if c == '>' then
        match findLitCIFrom s "</figure>".data (p + 1) s.length with
        | some e => some e
        | none => figScan s (p + 1) fuel
      else figScan s (p + 1) fuel

/-- Match of `<figure.*?>.*?</figure>` (DOTALL, re.I) at the start of `s`. -/
def figMatch (s : List Char) : Option Nat :=
  if litCIAt s 0 "<figure".data then figScan s 7 s.length else none

/-- Multiline `$`: end of string or just before a newline. -/
def isLineEnd (s : List Char) (q : Nat) : Bool :=
  match s[q]? with
  | none => true
  | some c => c == '\n'

/-- Greedy `\s*$` from `q`, trying the largest whitespace amount `b` first. -/
def wsDollarAux (s : List Char) (q : Nat) : Nat → Option Nat
  | 0 => if isLineEnd s q then some q else none
  | b + 1 =>
    if isLineEnd s (q + b + 1) then some (q + b + 1) else wsDollarAux s q b

/-- Greedy `\s*$` from `q`: match end if some line end is reachable through
whitespace, preferring the largest amount consumed. -/
def wsDollar (s : List Char) (q : Nat) : Option Nat := wsDollarAux s q (wsRun s q)

/-- Alternation `(Logo|Footer|Confidential)` (re.I) at `p`. -/
def bpWordAt (s : List Char) (p : Nat) : Option Nat :=
  if litCIAt s p "logo".data then some (p + 4)
  else if litCIAt s p "footer".data then some (p + 6)
  else if litCIAt s p "confidential".data then some (p + 12)
  else none

/-- Word-then-`\s*$` attempt of the boilerplate pattern at `p`. -/
def bpAt (s : List Char) (p : Nat) : Option Nat :=
  match bpWordAt s p with
  | some q => wsDollar s q
  | none => none

/-- Greedy leading `\s*` of `^\s*(Logo|Footer|Confidential)\s*$`: try the
largest whitespace amount first, backtracking downward. -/
def bpTryA (s : List Char) (i : Nat) : Nat → Option Nat
  | 0 => bpAt s i
  | a + 1 =>
    match bpAt s (i + a + 1) with
    | some e => some e
    | none => bpTryA s i a

/-- Match of `^\s*(Logo|Footer|Confidential)\s*$` (re.M, re.I) at the start
of `s` (the caller guarantees a line start); returns match end. -/
def bpMatch (s : List Char) : Option Nat := bpTryA s 0 (wsRun s 0)

/-- `re.sub` pass for the PageHeader pattern, replacement `"\n{g}\n"`
(function `replace_pageheader` in the source). -/
def subPH : Nat → List Char → List Char
  | 0, s => s
  | _, [] => []
  | fuel + 1, c :: t =>
    match phMatch (c :: t) with
    | some (g, e) => '\n' :: (g ++ '\n' :: subPH fuel ((c :: t).drop e))
    | none => c :: subPH fuel t

/-- `re.sub(r'<!--.*?-->', '', text, flags=re.DOTALL)`. -/
def subComment : Nat → List Char → List Char
  | 0, s => s
  | _, [] => []
  | fuel + 1, c :: t =>
    match commentMatch (c :: t) with
    | some e => subComment fuel ((c :: t).drop e)
    | none => c :: subComment fuel t

/-- `re.sub(r'<figure.*?>.*?</figure>', '', text, flags=re.DOTALL | re.I)`. -/
def subFig : Nat → List Char → List Char
  | 0, s => s
  | _, [] => []
  | fuel + 1, c :: t =>
    match figMatch (c :: t) with
    | some e => subFig fuel ((c :: t).drop e)
    | none => c :: subFig fuel t

/-- `re.sub(r'^\s*(Logo|Footer|Confidential)\s*$', '', text, flags=re.M|re.I)`;
`atLS` tracks whether the current position is a line start (`^`). -/
def subBoiler : Nat → Bool → List Char → List Char
  | 0, _, s => s
  | _, _, [] => []
  | fuel + 1, atLS, c :: t =>
    if atLS then
      match bpMatch (c :: t) with
      | some e => subBoiler fuel ((c :: t)[e - 1]? == some '\n') ((c :: t).drop e)
      | none => c :: subBoiler fuel (c == '\n') t
    else c :: subBoiler fuel (c == '\n') t

/-- Body of `clean_text_preserve_headings` on an actual string: the four
`re.sub` passes in source order, then `str.strip()`. -/
def cleanTextStr (s : String) : String :=
  let a := subPH s.data.length s.data
  let b := subComment a.length a
  let c := subFig b.length b
  let d := subBoiler c.length true c
  String.mk (pyStripL d)

/-- A Python argument that is either a string or something else
(`isinstance(text, str)` test). -/
inductive PyObj
  | pystr (s : String)
  | nonstr
deriving DecidableEq

/-- `clean_text_preserve_headings`: defensive entry point; any non-string
argument yields `""` and the function is total (it never raises). -/
def clean_text_preserve_headings : PyObj → String
  | .pystr s => cleanTextStr s
  | .nonstr => ""

/-- One match of `^(#{1,6})\s*(.+?)\s*$` (re.M): start, end (position of the
multiline `$` reached), and the captured group 2. -/
structure HMatch where
  hstart : Nat
  hend : Nat
  title : List Char
deriving DecidableEq

/-- Lazy `(.+?)` scan: current group length `t ≥ 1` of non-newline characters
starting at `p`; prefer finishing with `\s*$` now, else extend by one
non-newline character.  Returns (group length, match end). -/
def titleLoop (s : List Char) (p : Nat) : Nat → Nat → Option (Nat × Nat)
  | t, 0 =>
    match wsDollar s (p + t) with
    | some e => some (t, e)
    | none => none
  | t, fuel + 1 =>
    match wsDollar s (p + t) with
    | some e => some (t, e)
    | none =>
      match s[p + t]? with
      | none => none
      | some c => if c == '\n' then none else titleLoop s p (t + 1) fuel

/-- `(.+?)\s*$` attempt with the group starting exactly at `p`. -/
def tryFromP (s : List Char) (p : Nat) : Option (Nat × Nat) :=
  match s[p]? with
  | none => none
  | some c => if c == '\n' then none else titleLoop s p 1 s.length

/-- Greedy first `\s*` of the heading pattern after the hashes at `j0`: try
the largest whitespace amount `a` first; returns (a, group length, end). -/
def tryA (s : List Char) (j0 : Nat) : Nat → Option (Nat × Nat × Nat)
  | 0 =>
    match tryFromP s j0 with
    | some (t, e) => some (0, t, e)
    | none => none
  | a + 1 =>
    match tryFromP s (j0 + a + 1) with
    | some (t, e) => some (a + 1, t, e)
    | none => tryA s j0 a

/-- Greedy `#{1,6}` at `i`: try `k` hashes, backtracking downward. -/
def tryK (s : List Char) (i : Nat) : Nat → Option HMatch
  | 0 => none
  | k + 1 =>
    let j0 := i + k + 1
    match tryA s j0 (wsRun s j0) with
    | some (a, t, e) => some ⟨i, e, (s.drop (j0 + a)).take t⟩
    | none => tryK s i k

/-- Attempt of `^(#{1,6})\s*(.+?)\s*$` at position `i` (caller guarantees the
multiline `^`). -/
def tryHeading (s : List Char) (i : Nat) : Option HMatch :=
  let m := hashRun s i
  if m = 0 then none else tryK s i (min m 6)

/-- Multiline `^`: position 0 or just after a newline. -/
def lineStart (s : List Char) (pos : Nat) : Bool :=
  pos == 0 || s[pos - 1]? == some '\n'

/-- `re.finditer` scan: try every position (the pattern is `^`-anchored so
only line starts can match), continuing after each match end. -/
def scanAux (s : List Char) : Nat → Nat → List HMatch
  | 0, _ => []
  | fuel + 1, pos =>
    if pos > s.length then []
    else if lineStart s pos then
      match tryHeading s pos with
      | some m => m :: scanAux s fuel (max m.hend (pos + 1))
      | none => scanAux s fuel (pos + 1)
    else scanAux s fuel (pos + 1)

/-- All matches of `^(#{1,6})\s*(.+?)\s*$` (re.M), in document order. -/
def findHeadings (s : List Char) : List HMatch := scanAux s (s.length + 1) 0

/-- Python slice `s[a:b]`. -/
def sliceL (s : List Char) (a b : Nat) : List Char := (s.take b).drop a

/-- The section list built from the heading matches: title is
`h.group(2).strip()`, content is `clean_text[h.end():next.start()].strip()`
(document end for the last heading). -/
def sectionsOf (s : List Char) : List HMatch → List (String × String)
  | [] => []
  | m :: rest =>
    ((pyStrip (String.mk m.title),
      pyStrip (String.mk (sliceL s m.hend
        (match rest with
         | [] => s.length
         | m2 :: _ => m2.hstart))))) :: sectionsOf s rest

/-- The heading segmenter applied to already-normalized text (the part of
`_extract_sections_from_text` after the `clean_text_preserve_headings`
call). -/
def segmentText (clean : String) : List (String × String) :=
  sectionsOf clean.data (findHeadings clean.data)

/-- `_extract_sections_from_text`: normalize, then segment by headings. -/
def extract_sections_from_text (md : String) : List (String × String) :=
  segmentText (cleanTextStr md)

/-- Splitting pass of `re.split(r'\n\n+', text)`: cut at each run of two or
more newlines (greedy delimiter). -/
def splitParasAux : Nat → List Char → List Char → List String
  | 0, acc, rest => [String.mk (acc.reverse ++ rest)]
  | _ + 1, acc, [] => [String.mk acc.reverse]
  | fuel + 1, acc, c :: t =>
    if c == '\n' then
      match t with
      | c2 :: t2 =>
        if c2 == '\n' then
          String.mk acc.reverse ::
            splitParasAux fuel [] (t2.dropWhile (fun x => x == '\n'))
        else splitParasAux fuel (c :: acc) t
      | [] => splitParasAux fuel (c :: acc) t
    else splitParasAux fuel (c :: acc) t

/-- `[p.strip() for p in re.split(r'\n\n+', contract_text) if p.strip()]`. -/
def splitParas (text : String) : List String :=
  ((splitParasAux (text.data.length + 1) [] text.data).filter
    (fun p => !(pyStrip p == ""))).map pyStrip

/-- `re.sub(r'^#+\s*', '', p)`: strip one leading run of hashes plus
whitespace, only when the string starts with `#`. -/
def stripHashMarks (p : String) : String :=
  match p.data with
  | '#' :: _ =>
    String.mk ((p.data.dropWhile (fun c => c == '#')).dropWhile pyIsSpace)
  | _ => p

/-- `p_clean = re.sub(r'^#+\s*', '', paragraphs[j]).strip().lower()`. -/
def paraKey (p : String) : String := lowerStr (pyStrip (stripHashMarks p))

/-- The aligner's paragraph-vs-heading test: `p_clean == heading.lower()`. -/
def paraMatches (target : String) (p : String) : Bool :=
  paraKey p == lowerStr target

/-- Linear scan of `range(j, …)` for the first paragraph matching `target`. -/
def findFromAux (target : String) : List String → Nat → Option Nat
  | [], _ => none
  | p :: ps, j => if paraMatches target p then some j else findFromAux target ps (j + 1)

/-- `for j in range(start_idx, num_paragraphs): if p_clean == heading_lower`:
first matching paragraph index at or after `startIdx`. -/
def findFrom (paras : List String) (startIdx : Nat) (target : String) : Option Nat :=
  findFromAux target (paras.drop startIdx) startIdx

/-- The `# Find next heading` loop: the first remaining reference heading
that occurs after `fidx` determines `end_idx`; otherwise `num_paragraphs`. -/
def findBoundary (paras : List String) (fidx : Nat) : List String → Nat
  | [] => paras.length
  | h :: rest =>
    match findFrom paras (fidx + 1) h with
    | some j => j
    | none => findBoundary paras fidx rest

/-- Python `sep.join(xs)`. -/
def joinSep (sep : String) : List String → String
  | [] => ""
  | [x] => x
  | x :: y :: xs => x ++ sep ++ joinSep sep (y :: xs)

/-- Python dict assignment `d[k] = v` on an insertion-ordered association
list: update in place if the key exists, else append. -/
def dinsert : List (String × String) → String → String → List (String × String)
  | [], k, v => [(k, v)]
  | (a, b) :: t, k, v => if a = k then (a, v) :: t else (a, b) :: dinsert t k v

/-- Result of the aligner loop: `dict` is the Python dict
`aligned_sections`; `trace` is a ghost field recording, per reference
heading in order, `none` (not found) or `(found_idx, end_idx)`. -/
structure AlignState where
  dict : List (String × String)
  trace : List (Option (Nat × Nat))
deriving DecidableEq

/-- The main loop of `extract_contract_sections` over the reference
headings, carrying the monotonic cursor `start_idx`. -/
def alignGo (paras : List String) : Nat → List (String × String) → List String → AlignState
  | _, acc, [] => ⟨acc, []⟩
  | startIdx, acc, h :: rest =>
    match findFrom paras startIdx h with
    | none =>
      let r := alignGo paras startIdx (dinsert acc h "") rest
      ⟨r.dict, none :: r.trace⟩
    | some fidx =>
      let eidx := findBoundary paras fidx rest
      let body := pyStrip (joinSep "\n\n" ((paras.take eidx).drop (fidx + 1)))
      let r := alignGo paras eidx (dinsert acc h body) rest
      ⟨r.dict, some (fidx, eidx) :: r.trace⟩

/-- `extract_contract_sections` with its ghost trace: clean, split into
paragraphs, then align every reference heading. -/
def alignFull (contract_text : String) (ref_headings : List String) : AlignState :=
  alignGo (splitParas (cleanTextStr contract_text)) 0 [] ref_headings

/-- `extract_contract_sections(contract_text, ref_headings)`. -/
def extract_contract_sections (contract_text : String) (ref_headings : List String) :
    List (String × String) :=
  (alignFull contract_text ref_headings).dict

/-- A parsed JSON value as far as the module observes it: a string, or
anything else (the code only ever compares values against a string). -/
inductive JVal
  | jstr (s : String)
  | jother
deriving DecidableEq

/-- Python `dict.get(k)` on a parsed JSON object. -/
def jget (d : List (String × JVal)) (k : String) : Option JVal :=
  match d.find? (fun kv => kv.1 == k) with
  | some kv => some kv.2
  | none => none

/-- First index of character `c`. -/
def firstIdxOf (c : Char) : List Char → Option Nat
  | [] => none
  | d :: t => if d == c then some 0 else (firstIdxOf c t).map (· + 1)

/-- Last index of character `c`. -/
def lastIdxOf (c : Char) (l : List Char) : Option Nat :=
  (firstIdxOf c l.reverse).map (fun k => l.length - 1 - k)

/-- `re.search(r'\{.*\}', content, re.DOTALL)`: leftmost `{` that has a later
`}`, greedy to the last `}` of the string. -/
def braceSpan (s : List Char) : Option (List Char) :=
  match firstIdxOf '{' s, lastIdxOf '}' s with
  | some p, some j => if p < j then some (sliceL s p (j + 1)) else none
  | _, _ => none

/-- `content.replace("\n", " ")`. -/
def flattenNl (l : List Char) : List Char :=
  l.map (fun c => if c == '\n' then ' ' else c)

/-- The comparator's fallback verdict: the dict literal built when no JSON
object is found or `json.loads` raises. -/
def oracleFallback (label : String) (content : String) : List (String × JVal) :=
  [("section", JVal.jstr label),
   ("status", JVal.jstr "Modified"),
   ("difference_summary", JVal.jstr (String.mk ((flattenNl content.data).take 400)))]

/-- Response handling of `compare_section_with_gpt`: extract the first
brace-delimited span, attempt `json.loads`, and fall back on failure. -/
def parseOracleContent (jsonLoads : String → Option (List (String × JVal)))
    (label : String) (content : String) : List (String × JVal) :=
  match braceSpan content.data with
  | some sub =>
    match jsonLoads (String.mk sub) with
    | some d => d
    | none => oracleFallback label content
  | none => oracleFallback label content

/-- `compare_section_with_gpt`: truncate both texts to 3000 characters,
invoke the oracle (which abstracts the prompt build plus chat call), and
parse its response. -/
def compare_section_with_gpt (oracle : String → String → String → String)
    (jsonLoads : String → Option (List (String × JVal)))
    (ref_heading ref_text con_text : String) : List (String × JVal) :=
  let ref_excerpt := takeChars 3000 (pyStrip ref_text)
  let con_excerpt := takeChars 3000 (pyStrip con_text)
  parseOracleContent jsonLoads ref_heading (oracle ref_heading ref_excerpt con_excerpt)

/-- `contract_sections.get(heading, "")`. -/
def lookupD (d : List (String × String)) (k : String) : String :=
  match d.find? (fun kv => kv.1 == k) with
  | some kv => kv.2
  | none => ""

/-- Result of `validate_service_description`.  `validation_status` and
`modified_sections` are the returned report; `oracleCalls` (per oracle
invocation: heading and the two excerpts) and `tagged` (each appended
verdict together with the reference heading whose comparison produced it)
are ghost instrumentation, with `modified_sections = tagged.map Prod.snd`. -/
structure ValidateResult where
  validation_status : String
  modified_sections : List (List (String × JVal))
  oracleCalls : List (String × String × String)
  tagged : List (String × List (String × JVal))
deriving DecidableEq

/-- The per-section loop of `validate_service_description`: skip sections
whose aligned contract text is falsy after `strip()`, otherwise invoke the
comparator and keep verdicts whose `status` equals `"Modified"`. -/
def validateGo (oracle : String → String → String → String)
    (jsonLoads : String → Option (List (String × JVal)))
    (contractSections : List (String × String)) :
    List (String × String) →
      List (String × String × String) × List (String × List (String × JVal))
  | [] => ([], [])
  | (heading, ref_text) :: rest =>
    let con_text := lookupD contractSections heading
    let r := validateGo oracle jsonLoads contractSections rest
    if pyStrip con_text = "" then r
    else
      let parsed := compare_section_with_gpt oracle jsonLoads heading ref_text con_text
      let call := (heading, takeChars 3000 (pyStrip ref_text), takeChars 3000 (pyStrip con_text))
      if jget parsed "status" = some (JVal.jstr "Modified")
      then (call :: r.1, (heading, parsed) :: r.2)
      else (call :: r.1, r.2)

/-- `validate_service_description(contract_md_text)`: the governing-clause
gate, then reference extraction, alignment, per-section comparison, and
aggregation.  `fieldglass_ref_md` is the content of the static reference
markdown file (data external to the repository). -/
def validate_service_description (fieldglass_ref_md : String)
    (oracle : String → String → String → String)
    (jsonLoads : String → Option (List (String × JVal)))
    (contract_md_text : String) : ValidateResult :=
  if !(gateSearch contract_md_text) then
    ⟨"Missing", [], [], []⟩
  else
    let ref_sections := extract_sections_from_text fieldglass_ref_md
    let ref_headings := ref_sections.map Prod.fst
    let contractSections := extract_contract_sections contract_md_text ref_headings
    let r := validateGo oracle jsonLoads contractSections ref_sections
    let modified := r.2.map Prod.snd
    ⟨if modified = [] then "Correct" else "Mismatch", modified, r.1, r.2⟩

/-- Membership of contract paragraph index `x` in the body span recorded by
one trace entry: the body of a section matched at `p` with boundary `e` is
built from paragraphs `p+1 … e-1`. -/
def inBody : Option (Nat × Nat) → Nat → Prop
  | none, _ => False
  | some (p, e), x => p < x ∧ x < e

instance (o : Option (Nat × Nat)) (x : Nat) : Decidable (inBody o x) :=
  match o with
  | none => isFalse (fun h => h)
  | some (p, e) => inferInstanceAs (Decidable (p < x ∧ x < e))

theorem findFromAux_bounds (target : String) :
    ∀ (l : List String) (j r : Nat), findFromAux target l j = some r →
      j ≤ r ∧ r < j + l.length := by
  intro l
  induction l with
  | nil => intro j r h; simp [findFromAux] at h
  | cons p ps ih =>
    intro j r h
    simp only [findFromAux] at h
    split at h
    · injection h with h
      simp only [List.length_cons]
      omega
    · have := ih (j + 1) r h
      simp only [List.length_cons]
      omega

theorem findFrom_bounds {paras : List String} {s : Nat} {t : String} {r : Nat}
    (h : findFrom paras s t = some r) : s ≤ r ∧ r < paras.length := by
  unfold findFrom at h
  have hb := findFromAux_bounds t (paras.drop s) s r h
  have hl : (paras.drop s).length = paras.length - s := List.length_drop ..
  omega

theorem findBoundary_bounds (paras : List String) (fidx : Nat) (hf : fidx < paras.length) :
    ∀ rest : List String, fidx + 1 ≤ findBoundary paras fidx rest ∧
      findBoundary paras fidx rest ≤ paras.length := by
  intro rest
  induction rest with
  | nil => simp only [findBoundary]; omega
  | cons h t ih =>
    simp only [findBoundary]
    split
    next j hc =>
      have := findFrom_bounds hc
      omega
    next hc => exact ih

/-- Well-formedness of an aligner trace relative to a lower cursor bound
`lo` and paragraph count `n`: every recorded match sits at or after the
cursor, its boundary is strictly beyond the match and within bounds, and
later entries start at or after that boundary. -/
def TraceOrdered (n : Nat) : Nat → List (Option (Nat × Nat)) → Prop
  | _, [] => True
  | lo, none :: rest => TraceOrdered n lo rest
  | lo, some (p, e) :: rest => lo ≤ p ∧ p < e ∧ e ≤ n ∧ TraceOrdered n e rest

theorem alignGo_trace_ordered (paras : List String) :
    ∀ (refs : List String) (startIdx : Nat) (acc : List (String × String)),
      TraceOrdered paras.length startIdx (alignGo paras startIdx acc refs).trace := by
  intro refs
  induction refs with
  | nil => intro s acc; simp [alignGo, TraceOrdered]
  | cons h rest ih =>
    intro s acc
    simp only [alignGo]
    cases hf : findFrom paras s h with
    | none =>
      simpa only [TraceOrdered] using ih s (dinsert acc h "")
    | some fidx =>
      have hb := findFrom_bounds hf
      have he := findBoundary_bounds paras fidx hb.2 rest
      simp only [TraceOrdered]
      exact ⟨hb.1, by omega, he.2, ih _ _⟩

theorem traceOrdered_get {n : Nat} :
    ∀ {tr : List (Option (Nat × Nat))} {lo i p e : Nat},
      TraceOrdered n lo tr → tr[i]? = some (some (p, e)) →
      lo ≤ p ∧ p < e ∧ e ≤ n := by
  intro tr
  induction tr with
  | nil => intro lo i p e _ h; simp at h
  | cons o t ih =>
    intro lo i p e ho h
    cases i with
    | zero =>
      simp only [List.getElem?_cons_zero, Option.some.injEq] at h
      subst h
      simp only [TraceOrdered] at ho
      exact ⟨ho.1, ho.2.1, ho.2.2.1⟩
    | succ i =>
      simp only [List.getElem?_cons_succ] at h
      cases o with
      | none =>
        simp only [TraceOrdered] at ho
        exact ih ho h
      | some pe =>
        obtain ⟨p1, e1⟩ := pe
        simp only [TraceOrdered] at ho
        have := ih ho.2.2.2 h
        omega

theorem traceOrdered_pair {n : Nat} :
    ∀ {tr : List (Option (Nat × Nat))} {lo i j p e q f : Nat},
      TraceOrdered n lo tr → i < j →
      tr[i]? = some (some (p, e)) → tr[j]? = some (some (q, f)) → e ≤ q := by
  intro tr
  induction tr with
  | nil => intro lo i j p e q f _ _ h; simp at h
  | cons o t ih =>
    intro lo i j p e q f ho hij hi hj
    cases i with
    | zero =>
      simp only [List.getElem?_cons_zero, Option.some.injEq] at hi
      subst hi
      cases j with
      | zero => omega
      | succ j =>
        simp only [List.getElem?_cons_succ] at hj
        simp only [TraceOrdered] at ho
        have := traceOrdered_get ho.2.2.2 hj
        omega
    | succ i =>
      cases j with
      | zero => omega
      | succ j =>
        simp only [List.getElem?_cons_succ] at hi hj
        cases o with
        | none =>
          simp only [TraceOrdered] at ho
          exact ih ho (by omega) hi hj
        | some pe =>
          obtain ⟨p1, e1⟩ := pe
          simp only [TraceOrdered] at ho
          exact ih ho.2.2.2 (by omega) hi hj

/-- C4: alignment monotonicity.  If reference heading `i` is matched at
contract paragraph position `p` and a later reference heading `j > i` is
matched at position `q`, then `p < q`: the monotonic cursor of
`extract_contract_sections` never matches headings out of document order. -/
theorem alignment_monotonic (contract_text : String) (ref_headings : List String)
    (i j p e q f : Nat) (hij : i < j)
    (hi : (alignFull contract_text ref_headings).trace[i]? = some (some (p, e)))
    (hj : (alignFull contract_text ref_headings).trace[j]? = some (some (q, f))) :
    p < q := by
  unfold alignFull at hi hj
  have ho := alignGo_trace_ordered (splitParas (cleanTextStr contract_text)) ref_headings 0 []
  have h1 := traceOrdered_get ho hi
  have h2 := traceOrdered_pair ho hij hi hj
  omega

/-- Witness for C4 on a concrete contract: headings A and B are matched at
paragraph positions 0 and 2, and the theorem yields 0 < 2. -/
theorem alignment_monotonic_witness :
    (0 : Nat) < 1 ∧
    (alignFull "A\n\nx\n\nB\n\ny" ["A", "B"]).trace[0]? = some (some (0, 2)) ∧
    (alignFull "A\n\nx\n\nB\n\ny" ["A", "B"]).trace[1]? = some (some (2, 4)) ∧
    (0 : Nat) < 2 :=
  ⟨by decide, by decide, by decide,
    alignment_monotonic "A\n\nx\n\nB\n\ny" ["A", "B"] 0 1 0 2 2 4 (by decide)
      (by decide) (by decide)⟩

/-- C10: aligned section bodies are pairwise disjoint spans of contract
paragraphs, and a matched heading's own paragraph belongs to no body
(including its own). -/
theorem aligned_bodies_disjoint (contract_text : String) (ref_headings : List String) :
    (∀ (i j x : Nat) (oi oj : Option (Nat × Nat)), i ≠ j →
      (alignFull contract_text ref_headings).trace[i]? = some oi →
      (alignFull contract_text ref_headings).trace[j]? = some oj →
      inBody oi x → ¬ inBody oj x) ∧
    (∀ (i j p e : Nat) (oi : Option (Nat × Nat)),
      (alignFull contract_text ref_headings).trace[j]? = some (some (p, e)) →
      (alignFull contract_text ref_headings).trace[i]? = some oi →
      ¬ inBody oi p) := by
  have ho := alignGo_trace_ordered (splitParas (cleanTextStr contract_text)) ref_headings 0 []
  constructor
  · intro i j x oi oj hij hi hj hx hy
    unfold alignFull at hi hj
    cases oi with
    | none => exact hx.elim
    | some pe =>
      obtain ⟨pi, ei⟩ := pe
      cases oj with
      | none => exact hy.elim
      | some qe =>
        obtain ⟨qj, fj⟩ := qe
        simp only [inBody] at hx hy
        rcases Nat.lt_or_ge i j with hlt | hge
        · have := traceOrdered_pair ho hlt hi hj
          omega
        · have hgt : j < i := by omega
          have := traceOrdered_pair ho hgt hj hi
          omega
  · intro i j p e oi hj hi hbody
    unfold alignFull at hi hj
    cases oi with
    | none => exact hbody.elim
    | some pe =>
      obtain ⟨pi, ei⟩ := pe
      simp only [inBody] at hbody
      rcases Nat.lt_trichotomy i j with hlt | heq | hgt
      · have := traceOrdered_pair ho hlt hi hj
        omega
      · subst heq
        rw [hi] at hj
        simp only [Option.some.injEq, Prod.mk.injEq] at hj
        omega
      · have := traceOrdered_pair ho hgt hj hi
        have h2 := traceOrdered_get ho hj
        omega

/-- Witness for C10: in the concrete aligned run, paragraph 1 lies in the
body of section 0, hence (by the theorem) not in the body of section 1, and
the matched heading paragraph 0 lies in no body. -/
theorem aligned_bodies_disjoint_witness :
    (alignFull "A\n\nx\n\nB\n\ny" ["A", "B"]).trace[0]? = some (some (0, 2)) ∧
    inBody (some (0, 2)) 1 ∧
    ¬ inBody (some (2, 4)) 1 ∧
    ¬ inBody (some (2, 4)) 0 :=
  ⟨by decide, by decide,
    (aligned_bodies_disjoint "A\n\nx\n\nB\n\ny" ["A", "B"]).1 0 1 1
      (some (0, 2)) (some (2, 4)) (by decide) (by decide) (by decide) (by decide),
    (aligned_bodies_disjoint "A\n\nx\n\nB\n\ny" ["A", "B"]).2 1 0 0 2
      (some (2, 4)) (by decide) (by decide)⟩

/-- C3 counterexample: with the repeated reference heading list
`["A", "A"]` the aligner's output dict has a single entry, not one
AlignedSection per reference heading, because the Python dict collapses
equal heading keys. -/
theorem aligner_dup_counterexample :
    (extract_contract_sections "" ["A", "A"]).map Prod.fst ≠ ["A", "A"] ∧
    extract_contract_sections "" ["A", "A"] = [("A", "")] := by
  constructor
  · decide
  · decide

theorem dinsert_keys_fresh (k v : String) :
    ∀ d : List (String × String), k ∉ d.map Prod.fst →
      (dinsert d k v).map Prod.fst = d.map Prod.fst ++ [k] := by
  intro d
  induction d with
  | nil => intro _; rfl
  | cons ab t ih =>
    obtain ⟨a, b⟩ := ab
    intro hk
    simp only [List.map_cons, List.mem_cons] at hk
    push_neg at hk
    simp only [dinsert]
    rw [if_neg (by exact fun h => hk.1 h.symm)]
    simp only [List.map_cons, List.cons_append, List.cons.injEq, true_and]
    exact ih hk.2

theorem alignGo_keys (paras : List String) :
    ∀ (refs : List String) (startIdx : Nat) (acc : List (String × String)),
      refs.Nodup → (∀ h ∈ refs, h ∉ acc.map Prod.fst) →
      (alignGo paras startIdx acc refs).dict.map Prod.fst = acc.map Prod.fst ++ refs := by
  intro refs
  induction refs with
  | nil => intro s acc _ _; simp [alignGo]
  | cons h rest ih =>
    intro s acc hnd hfresh
    have hfh : h ∉ acc.map Prod.fst := hfresh h (by simp)
    have hnd' : rest.Nodup := hnd.of_cons
    have hne : h ∉ rest := (List.nodup_cons.mp hnd).1
    simp only [alignGo]
    cases hf : findFrom paras s h with
    | none =>
      have hfresh' : ∀ g ∈ rest, g ∉ (dinsert acc h "").map Prod.fst := by
        intro g hg
        rw [dinsert_keys_fresh h "" acc hfh]
        simp only [List.mem_append, List.mem_singleton]
        push_neg
        exact ⟨fun hmem => hfresh g (by simp [hg]) hmem, fun he => hne (he ▸ hg)⟩
      have := ih s (dinsert acc h "") hnd' hfresh'
      simp only [this, dinsert_keys_fresh h "" acc hfh, List.append_assoc,
        List.singleton_append]
    | some fidx =>
      have hfresh' : ∀ g ∈ rest,
          g ∉ (dinsert acc h (pyStrip (joinSep "\n\n"
            ((paras.take (findBoundary paras fidx rest)).drop (fidx + 1))))).map Prod.fst := by
        intro g hg
        rw [dinsert_keys_fresh h _ acc hfh]
        simp only [List.mem_append, List.mem_singleton]
        push_neg
        exact ⟨fun hmem => hfresh g (by simp [hg]) hmem, fun he => hne (he ▸ hg)⟩
      have := ih (findBoundary paras fidx rest) (dinsert acc h _) hnd' hfresh'
      simp only [this, dinsert_keys_fresh h _ acc hfh, List.append_assoc,
        List.singleton_append]

theorem lookupD_cons (a b k : String) (t : List (String × String)) :
    lookupD ((a, b) :: t) k = if a = k then b else lookupD t k := by
  by_cases h : a = k
  · rw [if_pos h]
    unfold lookupD
    rw [@List.find?_cons_of_pos (String × String) (fun kv => kv.1 == k) (a, b) t
      (by simpa using h)]
  · rw [if_neg h]
    unfold lookupD
    rw [@List.find?_cons_of_neg (String × String) (fun kv => kv.1 == k) (a, b) t
      (by simpa using h)]

theorem lookupD_dinsert_self (k v : String) :
    ∀ d : List (String × String), lookupD (dinsert d k v) k = v := by
  intro d
  induction d with
  | nil => simp [dinsert, lookupD_cons]
  | cons ab t ih =>
    obtain ⟨a, b⟩ := ab
    simp only [dinsert]
    by_cases hak : a = k
    · subst hak
      simp [lookupD_cons]
    · rw [if_neg hak, lookupD_cons, if_neg hak]
      exact ih

theorem lookupD_dinsert_other {k k' : String} (hne : k ≠ k') (v : String) :
    ∀ d : List (String × String), lookupD (dinsert d k' v) k = lookupD d k := by
  intro d
  induction d with
  | nil =>
    simp only [dinsert, lookupD_cons]
    rw [if_neg (fun h => hne h.symm)]
  | cons ab t ih =>
    obtain ⟨a, b⟩ := ab
    simp only [dinsert]
    by_cases hak : a = k'
    · subst hak
      rw [if_pos rfl, lookupD_cons, lookupD_cons,
        if_neg (fun h => hne h.symm), if_neg (fun h => hne h.symm)]
    · rw [if_neg hak, lookupD_cons, lookupD_cons]
      by_cases hk : a = k
      · rw [if_pos hk, if_pos hk]
      · rw [if_neg hk, if_neg hk]
        exact ih

theorem alignGo_lookup_preserved (paras : List String) {k : String} :
    ∀ (refs : List String) (s : Nat) (acc : List (String × String)), k ∉ refs →
      lookupD (alignGo paras s acc refs).dict k = lookupD acc k := by
  intro refs
  induction refs with
  | nil => intro s acc _; rfl
  | cons h0 rest ih =>
    intro s acc hk
    simp only [List.mem_cons] at hk
    push_neg at hk
    simp only [alignGo]
    cases hf : findFrom paras s h0 with
    | none =>
      rw [ih s (dinsert acc h0 "") hk.2]
      exact lookupD_dinsert_other hk.1 "" acc
    | some fidx =>
      rw [ih (findBoundary paras fidx rest) (dinsert acc h0 _) hk.2]
      exact lookupD_dinsert_other hk.1 _ acc

theorem alignGo_unmatched_empty (paras : List String) :
    ∀ (refs : List String) (s : Nat) (acc : List (String × String)), refs.Nodup →
      ∀ (i : Nat) (g : String), refs[i]? = some g →
        (alignGo paras s acc refs).trace[i]? = some none →
        lookupD (alignGo paras s acc refs).dict g = "" := by
  intro refs
  induction refs with
  | nil => intro s acc _ i g hi _; simp at hi
  | cons h0 rest ih =>
    intro s acc hnd i g hi htr
    have hne : h0 ∉ rest := (List.nodup_cons.mp hnd).1
    have hnd' : rest.Nodup := hnd.of_cons
    simp only [alignGo] at htr ⊢
    cases hf : findFrom paras s h0 with
    | none =>
      simp only [hf] at htr ⊢
      cases i with
      | zero =>
        simp only [List.getElem?_cons_zero, Option.some.injEq] at hi
        subst hi
        rw [alignGo_lookup_preserved paras rest s (dinsert acc h0 "") hne]
        exact lookupD_dinsert_self h0 "" acc
      | succ i =>
        simp only [List.getElem?_cons_succ] at hi htr
        exact ih s (dinsert acc h0 "") hnd' i g hi htr
    | some fidx =>
      simp only [hf] at htr ⊢
      cases i with
      | zero => simp at htr
      | succ i =>
        simp only [List.getElem?_cons_succ] at hi htr
        exact ih (findBoundary paras fidx rest) (dinsert acc h0 _) hnd' i g hi htr

/-- C3 amended: for every contract text and every reference heading list
with pairwise-distinct titles, the aligner's output contains exactly one
AlignedSection per reference heading, in reference order, and a heading
the aligner does not match (its trace entry is `none`) is present with an
empty body — absence is never represented by omission.  With repeated
titles the claim fails: the Python dict keyed by heading collapses equal
titles to a single entry, as the counterexample exhibits. -/
theorem aligner_one_entry_per_heading (contract_text : String)
    (ref_headings : List String) (hnd : ref_headings.Nodup) :
    (extract_contract_sections contract_text ref_headings).map Prod.fst = ref_headings ∧
    ∀ (i : Nat) (g : String), ref_headings[i]? = some g →
      (alignFull contract_text ref_headings).trace[i]? = some none →
      lookupD (extract_contract_sections contract_text ref_headings) g = "" := by
  constructor
  · unfold extract_contract_sections alignFull
    have := alignGo_keys (splitParas (cleanTextStr contract_text)) ref_headings 0 []
      hnd (by simp)
    simpa using this
  · intro i g hi htr
    unfold extract_contract_sections alignFull at *
    exact alignGo_unmatched_empty (splitParas (cleanTextStr contract_text))
      ref_headings 0 [] hnd i g hi htr

/-- Witness for C3 amended on a distinct two-heading list, with heading
`A` unmatched and present with an empty body. -/
theorem aligner_one_entry_per_heading_witness :
    (["A", "B"] : List String).Nodup ∧
    (extract_contract_sections "" ["A", "B"]).map Prod.fst = ["A", "B"] ∧
    (["A", "B"] : List String)[0]? = some "A" ∧
    (alignFull "" ["A", "B"]).trace[0]? = some none ∧
    lookupD (extract_contract_sections "" ["A", "B"]) "A" = "" :=
  ⟨by decide, (aligner_one_entry_per_heading "" ["A", "B"] (by decide)).1,
    by decide, by decide,
    (aligner_one_entry_per_heading "" ["A", "B"] (by decide)).2 0 "A"
      (by decide) (by decide)⟩

/-- C1: when the raw contract text has no loose
`Attachment 1 … Service Description` marker (the gate regex fails), the
validator returns exactly `validation_status = "Missing"` with empty
`modified_sections`, and no oracle call and no verdict is produced. -/
theorem gate_missing_short_circuit (fieldglass_ref_md : String)
    (oracle : String → String → String → String)
    (jsonLoads : String → Option (List (String × JVal)))
    (contract_md_text : String) (h : gateSearch contract_md_text = false) :
    validate_service_description fieldglass_ref_md oracle jsonLoads contract_md_text =
      ⟨"Missing", [], [], []⟩ := by
  simp [validate_service_description, h]

/-- Witness for C1: a contract with no marker at all. -/
theorem gate_missing_short_circuit_witness :
    gateSearch "hello world" = false ∧
    validate_service_description "# Term\nBody" (fun _ _ _ => "{X}") (fun _ => none)
      "hello world" = ⟨"Missing", [], [], []⟩ :=
  ⟨by decide,
    gate_missing_short_circuit "# Term\nBody" (fun _ _ _ => "{X}") (fun _ => none)
      "hello world" (by decide)⟩

/-- C2: when the governing-clause gate passes, `validation_status` is
`"Mismatch"` iff `modified_sections` is non-empty, and `"Correct"` when it
is empty. -/
theorem aggregate_consistency (fieldglass_ref_md : String)
    (oracle : String → String → String → String)
    (jsonLoads : String → Option (List (String × JVal)))
    (contract_md_text : String) (h : gateSearch contract_md_text = true) :
    ((validate_service_description fieldglass_ref_md oracle jsonLoads
        contract_md_text).validation_status = "Mismatch" ↔
      (validate_service_description fieldglass_ref_md oracle jsonLoads
        contract_md_text).modified_sections ≠ []) ∧
    ((validate_service_description fieldglass_ref_md oracle jsonLoads
        contract_md_text).modified_sections = [] →
      (validate_service_description fieldglass_ref_md oracle jsonLoads
        contract_md_text).validation_status = "Correct") := by
  simp only [validate_service_description, h, Bool.not_true, Bool.false_eq_true,
    if_false]
  by_cases hm : ((validateGo oracle jsonLoads
      (extract_contract_sections contract_md_text
        ((extract_sections_from_text fieldglass_ref_md).map Prod.fst))
      (extract_sections_from_text fieldglass_ref_md)).2.map Prod.snd) = []
  · simp [hm]
  · simp [hm]

/-- Witness for C2: with an empty reference document no section is compared,
`modified_sections` is empty and the status is `"Correct"`. -/
theorem aggregate_consistency_witness :
    gateSearch "Attachment 1: Service Description" = true ∧
    (validate_service_description "" (fun _ _ _ => "") (fun _ => none)
      "Attachment 1: Service Description").modified_sections = [] ∧
    (validate_service_description "" (fun _ _ _ => "") (fun _ => none)
      "Attachment 1: Service Description").validation_status = "Correct" :=
  ⟨by decide, by decide,
    (aggregate_consistency "" (fun _ _ _ => "") (fun _ => none)
      "Attachment 1: Service Description" (by decide)).2 (by decide)⟩

theorem validateGo_only_nonempty (oracle : String → String → String → String)
    (jsonLoads : String → Option (List (String × JVal)))
    (contractSections : List (String × String)) :
    ∀ secs : List (String × String),
      (∀ c ∈ (validateGo oracle jsonLoads contractSections secs).1,
        ¬ pyStrip (lookupD contractSections c.1) = "") ∧
      (∀ t ∈ (validateGo oracle jsonLoads contractSections secs).2,
        ¬ pyStrip (lookupD contractSections t.1) = "") := by
  intro secs
  induction secs with
  | nil => simp [validateGo]
  | cons sec rest ih =>
    obtain ⟨heading, ref_text⟩ := sec
    simp only [validateGo]
    by_cases hs : pyStrip (lookupD contractSections heading) = ""
    · simpa [hs] using ih
    · simp only [hs, if_false]
      by_cases hmod : jget (compare_section_with_gpt oracle jsonLoads heading
          ref_text (lookupD contractSections heading)) "status" =
          some (JVal.jstr "Modified")
      · simp only [hmod, if_true]
        constructor
        · intro c hc
          rcases List.mem_cons.mp hc with hc | hc
          · subst hc; exact hs
          · exact ih.1 c hc
        · intro t ht
          rcases List.mem_cons.mp ht with ht | ht
          · subst ht; exact hs
          · exact ih.2 t ht
      · simp only [hmod, if_false]
        constructor
        · intro c hc
          rcases List.mem_cons.mp hc with hc | hc
          · subst hc; exact hs
          · exact ih.1 c hc
        · exact ih.2

/-- C5: a reference heading whose aligned contract text is empty or
whitespace-only (so `strip()` yields `""`, in particular every unmatched
heading, whose aligned body is `""`) triggers no oracle call and
contributes no verdict to `modified_sections`. -/
theorem empty_section_skipped (fieldglass_ref_md : String)
    (oracle : String → String → String → String)
    (jsonLoads : String → Option (List (String × JVal)))
    (contract_md_text : String) (hname : String)
    (h : pyStrip (lookupD (extract_contract_sections contract_md_text
      ((extract_sections_from_text fieldglass_ref_md).map Prod.fst)) hname) = "") :
    (∀ c ∈ (validate_service_description fieldglass_ref_md oracle jsonLoads
      contract_md_text).oracleCalls, c.1 ≠ hname) ∧
    (∀ t ∈ (validate_service_description fieldglass_ref_md oracle jsonLoads
      contract_md_text).tagged, t.1 ≠ hname) := by
  by_cases hg : gateSearch contract_md_text
  · simp only [validate_service_description, hg, Bool.not_true, Bool.false_eq_true,
      if_false]
    have hv := validateGo_only_nonempty oracle jsonLoads
      (extract_contract_sections contract_md_text
        ((extract_sections_from_text fieldglass_ref_md).map Prod.fst))
      (extract_sections_from_text fieldglass_ref_md)
    constructor
    · intro c hc he
      exact hv.1 c hc (he ▸ h)
    · intro t ht he
      exact hv.2 t ht (he ▸ h)
  · simp only [Bool.not_eq_true] at hg
    simp [validate_service_description, hg]

/-- Witness for C5: the reference heading `Term` has no matching contract
paragraph, its aligned text is empty, and no oracle call names it. -/
theorem empty_section_skipped_witness :
    pyStrip (lookupD (extract_contract_sections
      "Attachment 1: Service Description\n\nNothing here"
      ((extract_sections_from_text "# Term\nBody").map Prod.fst)) "Term") = "" ∧
    (∀ c ∈ (validate_service_description "# Term\nBody" (fun _ _ _ => "{X}")
      (fun _ => none) "Attachment 1: Service Description\n\nNothing here").oracleCalls,
      c.1 ≠ "Term") :=
  ⟨by decide,
    (empty_section_skipped "# Term\nBody" (fun _ _ _ => "{X}") (fun _ => none)
      "Attachment 1: Service Description\n\nNothing here" "Term" (by decide)).1⟩

theorem validateGo_tagged_status (oracle : String → String → String → String)
    (jsonLoads : String → Option (List (String × JVal)))
    (contractSections : List (String × String)) :
    ∀ secs : List (String × String),
      ∀ t ∈ (validateGo oracle jsonLoads contractSections secs).2,
        jget t.2 "status" = some (JVal.jstr "Modified") := by
  intro secs
  induction secs with
  | nil => simp [validateGo]
  | cons sec rest ih =>
    obtain ⟨heading, ref_text⟩ := sec
    simp only [validateGo]
    by_cases hs : pyStrip (lookupD contractSections heading) = ""
    · simpa [hs] using ih
    · simp only [hs, if_false]
      by_cases hmod : jget (compare_section_with_gpt oracle jsonLoads heading
          ref_text (lookupD contractSections heading)) "status" =
          some (JVal.jstr "Modified")
      · simp only [hmod, if_true]
        intro t ht
        rcases List.mem_cons.mp ht with ht | ht
        · subst ht; exact hmod
        · exact ih t ht
      · simp only [hmod, if_false]
        exact ih

/-- C9: every verdict that reaches `modified_sections` has a parsed
`status` field equal to the exact string `"Modified"`; a parsed object
whose `status` is any other value (lower case, misspelt, non-string, or
missing) contributes no entry and is indistinguishable from a Match in the
report — the Match/Modified constraint is not enforced on parsed output. -/
theorem modified_requires_exact_status (fieldglass_ref_md : String)
    (oracle : String → String → String → String)
    (jsonLoads : String → Option (List (String × JVal)))
    (contract_md_text : String) :
    ∀ t ∈ (validate_service_description fieldglass_ref_md oracle jsonLoads
      contract_md_text).tagged, jget t.2 "status" = some (JVal.jstr "Modified") := by
  by_cases hg : gateSearch contract_md_text
  · simp only [validate_service_description, hg, Bool.not_true, Bool.false_eq_true,
      if_false]
    exact validateGo_tagged_status oracle jsonLoads _ _
  · simp only [Bool.not_eq_true] at hg
    simp [validate_service_description, hg]

/-- Witness for C9: a concrete run in which the oracle answer parses to a
dict with `status = "Modified"`, which therefore appears in `tagged`. -/
theorem modified_requires_exact_status_witness :
    ("Term", [("status", JVal.jstr "Modified")]) ∈
      (validate_service_description "# Term\nBody" (fun _ _ _ => "{X}")
        (fun s => if s = "{X}" then some [("status", JVal.jstr "Modified")] else none)
        "Attachment 1: Service Description\n\nTerm\n\nTwelve months").tagged ∧
    jget [("status", JVal.jstr "Modified")] "status" = some (JVal.jstr "Modified") :=
  ⟨by decide,
    modified_requires_exact_status "# Term\nBody" (fun _ _ _ => "{X}")
      (fun s => if s = "{X}" then some [("status", JVal.jstr "Modified")] else none)
      "Attachment 1: Service Description\n\nTerm\n\nTwelve months"
      ("Term", [("status", JVal.jstr "Modified")]) (by decide)⟩

/-- C6 counterexample: for the oracle response `"no json\nhere"` (which
contains no brace-delimited JSON object) the fallback verdict's status is
`"Modified"`, but its `difference_summary` is `"no json here"`, which is
not a prefix — hence not a truncated copy — of the raw response text: the
code first replaces newlines with spaces. -/
theorem comparator_fallback_counterexample :
    jget (parseOracleContent (fun _ => none) "Sec" "no json\nhere") "status" =
      some (JVal.jstr "Modified") ∧
    jget (parseOracleContent (fun _ => none) "Sec" "no json\nhere")
      "difference_summary" = some (JVal.jstr "no json here") ∧
    "no json here".data.isPrefixOf "no json\nhere".data = false := by
  refine ⟨by decide, by decide, by decide⟩

/-- C6 amended: on any oracle response with no parseable brace-delimited
JSON object the comparator (total, hence non-raising) returns the fallback
verdict: `status = "Modified"` and `difference_summary` equal to the first
400 characters of the raw response with newlines replaced by spaces. -/
theorem comparator_fallback (jsonLoads : String → Option (List (String × JVal)))
    (label content : String)
    (h : ∀ sub, braceSpan content.data = some sub → jsonLoads (String.mk sub) = none) :
    parseOracleContent jsonLoads label content =
      [("section", JVal.jstr label),
       ("status", JVal.jstr "Modified"),
       ("difference_summary",
         JVal.jstr (String.mk ((flattenNl content.data).take 400)))] := by
  unfold parseOracleContent
  cases hb : braceSpan content.data with
  | none => rfl
  | some sub => simp [h sub hb, oracleFallback]

/-- Witness for C6 amended at a concrete brace-free response. -/
theorem comparator_fallback_witness :
    parseOracleContent (fun _ => none) "Sec" "no json at all" =
      [("section", JVal.jstr "Sec"),
       ("status", JVal.jstr "Modified"),
       ("difference_summary",
         JVal.jstr (String.mk ((flattenNl "no json at all".data).take 400)))] :=
  comparator_fallback (fun _ => none) "Sec" "no json at all" (fun _ _ => rfl)

/-- C8: `clean_text_preserve_headings` is total (never raises) and returns
the empty string on every non-string input. -/
theorem clean_nonstring (v : PyObj) (h : ∀ s, v ≠ PyObj.pystr s) :
    clean_text_preserve_headings v = "" := by
  cases v with
  | pystr s => exact absurd rfl (h s)
  | nonstr => rfl

/-- Witness for C8 at the non-string input. -/
theorem clean_nonstring_witness :
    (∀ s, PyObj.nonstr ≠ PyObj.pystr s) ∧
    clean_text_preserve_headings PyObj.nonstr = "" :=
  ⟨fun _ h => PyObj.noConfusion h,
    clean_nonstring PyObj.nonstr (fun _ h => PyObj.noConfusion h)⟩

theorem countWhileAux_le (p : Char → Bool) :
    ∀ l : List Char, countWhileAux p l ≤ l.length := by
  intro l
  induction l with
  | nil => simp [countWhileAux]
  | cons c t ih =>
    simp only [countWhileAux, List.length_cons]
    split
    · omega
    · omega

theorem wsRun_le (s : List Char) (i : Nat) (h : i ≤ s.length) :
    i + wsRun s i ≤ s.length := by
  unfold wsRun runFrom
  have := countWhileAux_le pyIsSpace (s.drop i)
  rw [List.length_drop] at this
  omega

theorem wsDollarAux_ge (s : List Char) (q : Nat) :
    ∀ b e, wsDollarAux s q b = some e → q ≤ e ∧ e ≤ q + b := by
  intro b
  induction b with
  | zero =>
    intro e h
    simp only [wsDollarAux] at h
    split at h
    · injection h with h; omega
    · cases h
  | succ b ih =>
    intro e h
    simp only [wsDollarAux] at h
    split at h
    · injection h with h; omega
    · have := ih e h
      omega

theorem wsDollar_bounds {s : List Char} {q e : Nat} (hq : q ≤ s.length)
    (h : wsDollar s q = some e) : q ≤ e ∧ e ≤ s.length := by
  unfold wsDollar at h
  have h1 := wsDollarAux_ge s q (wsRun s q) e h
  have h2 := wsRun_le s q hq
  omega

theorem getElem_some_lt {s : List Char} {p : Nat} {c : Char}
    (h : s[p]? = some c) : p < s.length := by
  by_contra hge
  rw [List.getElem?_eq_none (by omega)] at h
  cases h

theorem titleLoop_bounds (s : List Char) (p : Nat) :
    ∀ (fuel t t' e : Nat), 1 ≤ t → p + t ≤ s.length →
      titleLoop s p t fuel = some (t', e) → p < e ∧ e ≤ s.length := by
  intro fuel
  induction fuel with
  | zero =>
    intro t t' e ht hpt h
    simp only [titleLoop] at h
    cases hw : wsDollar s (p + t) with
    | none => rw [hw] at h; cases h
    | some e1 =>
      rw [hw] at h
      simp only [Option.some.injEq, Prod.mk.injEq] at h
      have hb := wsDollar_bounds hpt hw
      omega
  | succ fuel ih =>
    intro t t' e ht hpt h
    simp only [titleLoop] at h
    cases hw : wsDollar s (p + t) with
    | some e1 =>
      rw [hw] at h
      simp only [Option.some.injEq, Prod.mk.injEq] at h
      have hb := wsDollar_bounds hpt hw
      omega
    | none =>
      rw [hw] at h
      cases hc : s[p + t]? with
      | none => rw [hc] at h; cases h
      | some c =>
        simp only [hc] at h
        split at h
        · cases h
        · have hlt := getElem_some_lt hc
          exact ih (t + 1) t' e (by omega) (by omega) h

theorem tryFromP_bounds {s : List Char} {p t e : Nat}
    (h : tryFromP s p = some (t, e)) : p < e ∧ e ≤ s.length := by
  unfold tryFromP at h
  cases hc : s[p]? with
  | none => rw [hc] at h; cases h
  | some c =>
    simp only [hc] at h
    split at h
    · cases h
    · have hlt := getElem_some_lt hc
      exact titleLoop_bounds s p s.length 1 t e (by omega) (by omega) h

theorem tryA_bounds (s : List Char) (j0 : Nat) :
    ∀ (a : Nat) (r : Nat × Nat × Nat), tryA s j0 a = some r →
      j0 < r.2.2 ∧ r.2.2 ≤ s.length := by
  intro a
  induction a with
  | zero =>
    intro r h
    simp only [tryA] at h
    cases hc : tryFromP s j0 with
    | none => rw [hc] at h; cases h
    | some te =>
      obtain ⟨t, e⟩ := te
      rw [hc] at h
      injection h with h
      subst h
      exact tryFromP_bounds hc
  | succ a ih =>
    intro r h
    simp only [tryA] at h
    cases hc : tryFromP s (j0 + a + 1) with
    | none => rw [hc] at h; exact ih r h
    | some te =>
      obtain ⟨t, e⟩ := te
      rw [hc] at h
      injection h with h
      subst h
      have := tryFromP_bounds hc
      exact ⟨show j0 < e by omega, this.2⟩

theorem tryK_bounds (s : List Char) (i : Nat) :
    ∀ (k : Nat) (m : HMatch), tryK s i k = some m →
      m.hstart = i ∧ i < m.hend ∧ m.hend ≤ s.length := by
  intro k
  induction k with
  | zero => intro m h; simp [tryK] at h
  | succ k ih =>
    intro m h
    simp only [tryK] at h
    cases hc : tryA s (i + k + 1) (wsRun s (i + k + 1)) with
    | none => rw [hc] at h; exact ih m h
    | some r =>
      obtain ⟨a, t, e⟩ := r
      rw [hc] at h
      injection h with h
      subst h
      have hb := tryA_bounds s (i + k + 1) (wsRun s (i + k + 1)) (a, t, e) hc
      have hb' : i + k + 1 < e ∧ e ≤ s.length := hb
      exact ⟨rfl, show i < e by omega, hb'.2⟩

theorem tryHeading_bounds {s : List Char} {i : Nat} {m : HMatch}
    (h : tryHeading s i = some m) :
    m.hstart = i ∧ i < m.hend ∧ m.hend ≤ s.length := by
  unfold tryHeading at h
  by_cases hz : hashRun s i = 0
  · simp [hz] at h
  · simp only [hz, if_false] at h
    exact tryK_bounds s i _ m h

/-- Well-formedness of a heading-match list relative to a scan position
`lo` and text length `n`: matches start at or after `lo`, are nonempty,
stay within the text, and are pairwise ordered (each later match starts at
or after the previous match end). -/
def SpanOrdered (n : Nat) : Nat → List HMatch → Prop
  | _, [] => True
  | lo, m :: rest =>
    lo ≤ m.hstart ∧ m.hstart < m.hend ∧ m.hend ≤ n ∧ SpanOrdered n m.hend rest

theorem spanOrdered_mono {n : Nat} :
    ∀ {ms : List HMatch} {lo lo' : Nat}, lo' ≤ lo → SpanOrdered n lo ms →
      SpanOrdered n lo' ms := by
  intro ms
  cases ms with
  | nil => intro lo lo' _ _; trivial
  | cons m rest =>
    intro lo lo' hle ho
    simp only [SpanOrdered] at ho ⊢
    exact ⟨by omega, ho.2.1, ho.2.2.1, ho.2.2.2⟩

theorem scanAux_ordered (s : List Char) :
    ∀ fuel pos : Nat, SpanOrdered s.length pos (scanAux s fuel pos) := by
  intro fuel
  induction fuel with
  | zero => intro pos; trivial
  | succ fuel ih =>
    intro pos
    by_cases h1 : pos > s.length
    · simp only [scanAux, if_pos h1]
      trivial
    · by_cases h2 : lineStart s pos = true
      · simp only [scanAux, if_neg h1, h2, if_true]
        cases hm : tryHeading s pos with
        | none => exact spanOrdered_mono (by omega) (ih (pos + 1))
        | some m =>
          have hb := tryHeading_bounds hm
          simp only [SpanOrdered]
          exact ⟨by omega, by omega, by omega,
            spanOrdered_mono (le_max_left _ _) (ih (max m.hend (pos + 1)))⟩
      · simp only [scanAux, if_neg h1, h2, if_false]
        exact spanOrdered_mono (by omega) (ih (pos + 1))

theorem slice_append_drop (s : List Char) {a b : Nat} (hab : a ≤ b)
    (hb : b ≤ s.length) : sliceL s a b ++ s.drop b = s.drop a := by
  unfold sliceL
  conv_rhs => rw [← List.take_append_drop b s]
  rw [List.drop_append_of_le_length]
  rw [List.length_take]
  omega

/-- The heading-to-heading spans of the text: from each match start to the
next match start (text end for the last). -/
def spanChunks (s : List Char) : List HMatch → List (List Char)
  | [] => []
  | m :: rest =>
    sliceL s m.hstart
      (match rest with
       | [] => s.length
       | m2 :: _ => m2.hstart) :: spanChunks s rest

theorem spanChunks_flatten (s : List Char) :
    ∀ (ms : List HMatch) (lo : Nat), SpanOrdered s.length lo ms →
      ∀ (m0 : HMatch) (rest : List HMatch), ms = m0 :: rest →
        (spanChunks s ms).flatten = s.drop m0.hstart := by
  intro ms
  induction ms with
  | nil => intro lo _ m0 rest h; cases h
  | cons m tail ih =>
    intro lo ho m0 rest heq
    injection heq with h1 h2
    subst h1
    simp only [SpanOrdered] at ho
    cases tail with
    | nil =>
      simp only [spanChunks, List.flatten_cons, List.flatten_nil,
        List.append_nil, sliceL, List.take_length]
    | cons m2 t2 =>
      have ho2 := ho.2.2.2
      have hrec := ih m.hend ho2 m2 t2 rfl
      have ho2' : m.hend ≤ m2.hstart ∧ m2.hstart < m2.hend ∧ m2.hend ≤ s.length := by
        simp only [SpanOrdered] at ho2
        exact ⟨ho2.1, ho2.2.1, ho2.2.2.1⟩
      simp only [spanChunks, List.flatten_cons] at hrec ⊢
      rw [hrec]
      exact slice_append_drop s (by omega) (by omega)

theorem sectionsOf_length (s : List Char) :
    ∀ ms : List HMatch, (sectionsOf s ms).length = ms.length := by
  intro ms
  induction ms with
  | nil => rfl
  | cons m rest ih => simp only [sectionsOf, List.length_cons, ih]

/-- C7 amended: for normalized text with at least one recognized heading,
concatenating the heading-to-heading spans (each from a heading-match start
to the next match start) reconstructs the suffix of the text from the first
heading exactly, and the segmenter emits exactly one Section per heading
match; each Section's title and body are whitespace/marker-stripped
fragments of its span, which is why concatenating titles and bodies alone
does not reconstruct the suffix. -/
theorem segmentation_spans (clean : String) (m0 : HMatch) (rest : List HMatch)
    (h : findHeadings clean.data = m0 :: rest) :
    (spanChunks clean.data (findHeadings clean.data)).flatten =
      clean.data.drop m0.hstart ∧
    (segmentText clean).length = (findHeadings clean.data).length := by
  constructor
  · exact spanChunks_flatten clean.data (findHeadings clean.data) 0
      (scanAux_ordered clean.data (clean.data.length + 1) 0) m0 rest h
  · exact sectionsOf_length clean.data (findHeadings clean.data)

/-- Witness for C7 amended on a one-heading text. -/
theorem segmentation_spans_witness :
    findHeadings "# A\nb".data = [⟨0, 3, "A".data⟩] ∧
    (spanChunks "# A\nb".data (findHeadings "# A\nb".data)).flatten =
      "# A\nb".data.drop 0 ∧
    (segmentText "# A\nb").length = (findHeadings "# A\nb".data).length :=
  ⟨by decide,
    (segmentation_spans "# A\nb" ⟨0, 3, "A".data⟩ [] (by decide)).1,
    (segmentation_spans "# A\nb" ⟨0, 3, "A".data⟩ [] (by decide)).2⟩

/-- C7 counterexample: on `"# A\nb\n\n# B\nc"` the segmenter yields
Sections `("A", "b")` and `("B", "c")`; concatenating all titles and bodies
gives `"AbBc"`, which is not the post-first-heading suffix of the input
(neither from the first match start, position 0, nor from its end,
position 3): heading markers, whitespace and newlines are stripped away. -/
theorem segmentation_totality_counterexample :
    findHeadings "# A\nb\n\n# B\nc".data = [⟨0, 3, "A".data⟩, ⟨7, 10, "B".data⟩] ∧
    segmentText "# A\nb\n\n# B\nc" = [("A", "b"), ("B", "c")] ∧
    (segmentText "# A\nb\n\n# B\nc").foldr (fun pr acc => pr.1 ++ pr.2 ++ acc) ""
      = "AbBc" ∧
    ("AbBc" : String) ≠ String.mk ("# A\nb\n\n# B\nc".data.drop 0) ∧
    ("AbBc" : String) ≠ String.mk ("# A\nb\n\n# B\nc".data.drop 3) := by
  refine ⟨by decide, by decide, by decide, by decide, by decide⟩
